import Mathlib

/-!
Verification of the deterministic core of the refine-flow repository:
the `ActivityState` merge engine with its dedup helpers and the
`open_questions` legacy migration (src/refineflow/core/state.py), and the
Jira structure validator `validate_jira_structure`
(src/refineflow/llm/processor_langchain.py).

Python strings are modelled as Lean `String` (a structure over `List Char`);
Python dicts are modelled as insertion-ordered association lists with unique
keys (uniqueness appears as an explicit hypothesis where a proof needs it,
since every Python dict satisfies it by construction).  `str.lower`,
`str.strip`, `\s` and `\d` are modelled over the ASCII range, which is the
range the validator's patterns and the merge keys exercise.
-/

namespace RefineFlow

/-- ASCII whitespace, the characters Python's `str.strip` and the regex
class `\s` treat as whitespace (restricted to ASCII). -/
def isPySpace (c : Char) : Bool :=
  c == ' ' || c == '\t' || c == '\n' || c == '\r' || c == '\x0b' || c == '\x0c'

/-- Python `str.lower()`, character-wise (`Char.toLower` lowers ASCII). -/
def py_lower (s : String) : String := String.mk (s.toList.map Char.toLower)

/-- `str.strip()` on a character list: drop leading and trailing whitespace. -/
def stripChars (l : List Char) : List Char :=
  ((l.dropWhile isPySpace).reverse.dropWhile isPySpace).reverse

/-- Python `str.strip()`. -/
def py_strip (s : String) : String := String.mk (stripChars s.toList)

/-- The dedup key used by `dedupe_strings` in `ActivityState.merge_with`:
`item.lower().strip()`. -/
def norm_key (s : String) : String := py_strip (py_lower s)

/-- Generic ordered dedup loop shared by the two helpers inside
`ActivityState.merge_with`: walk the list, keep an item when its key has not
been seen yet and the key passes `keep`, and record the key as seen exactly
when the item is kept.  `dedupe_strings` instantiates `key` with
`item.lower().strip()` and `keep` with Python truthiness of the key;
`dedupe_list` instantiates `key` with the sorted key-value pairs and keeps
every key. -/
def dedupeByAux {α κ : Type} [DecidableEq κ] (key : α → κ) (keep : κ → Bool) :
    List κ → List α → List α
  | _, [] => []
  | seen, item :: rest =>
    if key item ∉ seen ∧ keep (key item) = true then
      item :: dedupeByAux key keep (key item :: seen) rest
    else
      dedupeByAux key keep seen rest

/-- The set of keys recorded as seen after `dedupeByAux` has walked `l`. -/
def seenAfter {α κ : Type} [DecidableEq κ] (key : α → κ) (keep : κ → Bool) :
    List κ → List α → List κ
  | seen, [] => seen
  | seen, item :: rest =>
    if key item ∉ seen ∧ keep (key item) = true then
      seenAfter key keep (key item :: seen) rest
    else
      seenAfter key keep seen rest

section DedupeLemmas

variable {α κ : Type} [DecidableEq κ] {key : α → κ} {keep : κ → Bool}

theorem dedupeByAux_append (seen : List κ) (xs ys : List α) :
    dedupeByAux key keep seen (xs ++ ys) =
      dedupeByAux key keep seen xs ++ dedupeByAux key keep (seenAfter key keep seen xs) ys := by
  induction xs generalizing seen with
  | nil => simp [dedupeByAux, seenAfter]
  | cons x t ih =>
    by_cases h : key x ∉ seen ∧ keep (key x) = true
    · simp [dedupeByAux, seenAfter, h, ih]
    · simp [dedupeByAux, seenAfter, h, ih]

theorem mem_seenAfter {k : κ} (seen : List κ) (xs : List α) :
    k ∈ seenAfter key keep seen xs ↔
      k ∈ seen ∨ (keep k = true ∧ k ∈ xs.map key) := by
  induction xs generalizing seen with
  | nil => simp [seenAfter]
  | cons x t ih =>
    by_cases h : key x ∉ seen ∧ keep (key x) = true
    · rw [seenAfter, if_pos h, ih]
      simp only [List.mem_cons, List.map_cons]
      constructor
      · rintro ((rfl | hs) | ⟨hk, hm⟩)
        · exact Or.inr ⟨h.2, Or.inl rfl⟩
        · exact Or.inl hs
        · exact Or.inr ⟨hk, Or.inr hm⟩
      · rintro (hs | ⟨hk, (rfl | hm)⟩)
        · exact Or.inl (Or.inr hs)
        · exact Or.inl (Or.inl rfl)
        · exact Or.inr ⟨hk, hm⟩
    · rw [seenAfter, if_neg h, ih]
      simp only [List.map_cons, List.mem_cons]
      constructor
      · rintro (hs | ⟨hk, hm⟩)
        · exact Or.inl hs
        · exact Or.inr ⟨hk, Or.inr hm⟩
      · rintro (hs | ⟨hk, (rfl | hm)⟩)
        · exact Or.inl hs
        · rcases not_and_or.mp h with h1 | h2
          · exact Or.inl (not_not.mp h1)
          · exact absurd hk h2
        · exact Or.inr ⟨hk, hm⟩

theorem of_mem_dedupeByAux {x : α} {seen : List κ} {xs : List α}
    (h : x ∈ dedupeByAux key keep seen xs) :
    keep (key x) = true ∧ key x ∉ seen := by
  induction xs generalizing seen with
  | nil => simp [dedupeByAux] at h
  | cons y t ih =>
    by_cases hc : key y ∉ seen ∧ keep (key y) = true
    · rw [dedupeByAux, if_pos hc] at h
      rcases List.mem_cons.mp h with rfl | hmem
      · exact ⟨hc.2, hc.1⟩
      · have := ih hmem
        exact ⟨this.1, fun hs => this.2 (List.mem_cons_of_mem _ hs)⟩
    · rw [dedupeByAux, if_neg hc] at h
      exact ih h

theorem pairwise_key_dedupeByAux (seen : List κ) (xs : List α) :
    (dedupeByAux key keep seen xs).Pairwise (fun u v => key u ≠ key v) := by
  induction xs generalizing seen with
  | nil => simp [dedupeByAux]
  | cons x t ih =>
    by_cases hc : key x ∉ seen ∧ keep (key x) = true
    · rw [dedupeByAux, if_pos hc]
      refine List.Pairwise.cons (fun v hv => ?_) (ih _)
      have := (of_mem_dedupeByAux hv).2
      intro heq
      exact this (heq ▸ List.mem_cons_self _ _)
    · rw [dedupeByAux, if_neg hc]
      exact ih seen

theorem dedupeByAux_sublist (seen : List κ) (xs : List α) :
    (dedupeByAux key keep seen xs).Sublist xs := by
  induction xs generalizing seen with
  | nil => simp [dedupeByAux]
  | cons x t ih =>
    by_cases hc : key x ∉ seen ∧ keep (key x) = true
    · rw [dedupeByAux, if_pos hc]
      exact List.Sublist.cons₂ x (ih _)
    · rw [dedupeByAux, if_neg hc]
      exact List.Sublist.cons x (ih seen)

theorem dedupeByAux_eq_nil {seen : List κ} {xs : List α}
    (h : ∀ x ∈ xs, key x ∈ seen ∨ keep (key x) = false) :
    dedupeByAux key keep seen xs = [] := by
  induction xs generalizing seen with
  | nil => rfl
  | cons x t ih =>
    have hx := h x (List.mem_cons_self _ _)
    have hc : ¬ (key x ∉ seen ∧ keep (key x) = true) := by
      rcases hx with h1 | h2
      · exact fun hcc => hcc.1 h1
      · exact fun hcc => by simp [h2] at hcc
    rw [dedupeByAux, if_neg hc]
    exact ih fun y hy => h y (List.mem_cons_of_mem _ hy)

theorem mem_key_dedupeByAux {k : κ} {seen : List κ} {xs : List α}
    (hkeep : keep k = true) (hmem : k ∈ xs.map key) (hs : k ∉ seen) :
    k ∈ (dedupeByAux key keep seen xs).map key := by
  induction xs generalizing seen with
  | nil => simp at hmem
  | cons x t ih =>
    by_cases hk : k = key x
    · subst hk
      rw [dedupeByAux, if_pos ⟨hs, hkeep⟩]
      simp
    · have hmem' : k ∈ t.map key := by
        rcases List.mem_map.mp hmem with ⟨y, hy, hky⟩
        rcases List.mem_cons.mp hy with rfl | hyt
        · exact absurd hky.symm hk
        · exact List.mem_map.mpr ⟨y, hyt, hky⟩
      by_cases hc : key x ∉ seen ∧ keep (key x) = true
      · rw [dedupeByAux, if_pos hc]
        have : k ∉ key x :: seen := by
          intro hmm
          rcases List.mem_cons.mp hmm with h1 | h2
          · exact hk h1
          · exact hs h2
        simpa using Or.inr (ih hmem' this)
      · rw [dedupeByAux, if_neg hc]
        exact ih hmem' hs

theorem dedupeByAux_eq_self {seen : List κ} {xs : List α}
    (h1 : xs.Pairwise (fun u v => key u ≠ key v))
    (h2 : ∀ x ∈ xs, keep (key x) = true)
    (h3 : ∀ x ∈ xs, key x ∉ seen) :
    dedupeByAux key keep seen xs = xs := by
  induction xs generalizing seen with
  | nil => rfl
  | cons x t ih =>
    have hc : key x ∉ seen ∧ keep (key x) = true :=
      ⟨h3 x (List.mem_cons_self _ _), h2 x (List.mem_cons_self _ _)⟩
    rw [dedupeByAux, if_pos hc]
    have ht : dedupeByAux key keep (key x :: seen) t = t := by
      refine ih (List.Pairwise.of_cons h1) (fun y hy => h2 y (List.mem_cons_of_mem _ hy))
        (fun y hy hmem => ?_)
      rcases List.mem_cons.mp hmem with heq | hseen
      · exact (List.pairwise_cons.mp h1).1 y hy heq.symm
      · exact h3 y (List.mem_cons_of_mem _ hy) hseen
    rw [ht]

/-- Re-appending the incoming suffix to an already deduped concatenation and
deduping again is a no-op: the core lemma behind re-merge idempotence. -/
theorem dedupe_dedupe_append (xs ys : List α) :
    dedupeByAux key keep [] (dedupeByAux key keep [] (xs ++ ys) ++ ys) =
      dedupeByAux key keep [] (xs ++ ys) := by
  set D := dedupeByAux key keep [] (xs ++ ys) with hD
  rw [dedupeByAux_append]
  have hfix : dedupeByAux key keep [] D = D := by
    refine dedupeByAux_eq_self (pairwise_key_dedupeByAux _ _) ?_ ?_
    · exact fun x hx => (of_mem_dedupeByAux hx).1
    · simp
  have hnil : dedupeByAux key keep (seenAfter key keep [] D) ys = [] := by
    refine dedupeByAux_eq_nil fun y hy => ?_
    by_cases hk : keep (key y) = true
    · left
      rw [mem_seenAfter]
      refine Or.inr ⟨hk, ?_⟩
      rw [hfix] at *
      exact mem_key_dedupeByAux hk
        (List.mem_map.mpr ⟨y, List.mem_append_right _ hy, rfl⟩) (by simp)
    · right
      simpa using hk
  rw [hfix, hnil, List.append_nil]

end DedupeLemmas

/-! ### Ordering on records

Python's `sorted(item.items())` sorts the `(key, value)` pairs of a record
dict lexicographically, comparing strings by code point.  We model string
comparison by a code-point lexicographic comparison on the character lists
(Python `str` comparison), and pair comparison by the induced tuple order. -/

/-- Code-point lexicographic strict comparison of character lists, the
order Python uses to compare strings. -/
def charListLt : List Char → List Char → Bool
  | [], [] => false
  | [], _ :: _ => true
  | _ :: _, [] => false
  | a :: as, b :: bs =>
    if a.toNat < b.toNat then true
    else if b.toNat < a.toNat then false
    else charListLt as bs

/-- Python `<` on strings. -/
def strLtB (a b : String) : Bool := charListLt a.toList b.toList

/-- Python `<=` on strings (total order, so `a <= b` iff `not (b < a)`). -/
def strLeB (a b : String) : Bool := !(strLtB b a)

/-- Python `<=` on `(key, value)` tuples of strings: lexicographic. -/
def pairLe (p q : String × String) : Prop :=
  strLtB p.1 q.1 = true ∨ (p.1 = q.1 ∧ strLeB p.2 q.2 = true)

instance : DecidableRel pairLe := fun p q =>
  inferInstanceAs (Decidable
    (strLtB p.1 q.1 = true ∨ (p.1 = q.1 ∧ strLeB p.2 q.2 = true)))

theorem charListLt_irrefl (l : List Char) : charListLt l l = false := by
  induction l with
  | nil => rfl
  | cons a t ih => simp [charListLt, ih]

theorem charListLt_asymm {a b : List Char} (h : charListLt a b = true) :
    charListLt b a = false := by
  induction a generalizing b with
  | nil =>
    cases b with
    | nil => simp [charListLt] at h
    | cons y ys => simp [charListLt]
  | cons x xs ih =>
    cases b with
    | nil => simp [charListLt] at h
    | cons y ys =>
      rw [charListLt] at h
      rw [charListLt]
      by_cases h1 : x.toNat < y.toNat
      · rw [if_neg (show ¬ y.toNat < x.toNat by omega), if_pos h1]
      · by_cases h2 : y.toNat < x.toNat
        · rw [if_neg h1, if_pos h2] at h
          exact absurd h Bool.false_ne_true
        · rw [if_neg h1, if_neg h2] at h
          rw [if_neg h2, if_neg h1]
          exact ih h

theorem charListLt_connect {a b : List Char} (h1 : charListLt a b = false)
    (h2 : charListLt b a = false) : a = b := by
  induction a generalizing b with
  | nil =>
    cases b with
    | nil => rfl
    | cons y ys => simp [charListLt] at h1
  | cons x xs ih =>
    cases b with
    | nil => simp [charListLt] at h2
    | cons y ys =>
      by_cases hlt : x.toNat < y.toNat
      · simp [charListLt, hlt] at h1
      · by_cases hgt : y.toNat < x.toNat
        · simp [charListLt, hgt] at h2
        · have hn : x.toNat = y.toNat := by omega
          have hxy : x = y := by
            rw [← Char.ofNat_toNat x, ← Char.ofNat_toNat y, hn]
          subst hxy
          rw [charListLt, if_neg hlt, if_neg hgt] at h1
          rw [charListLt, if_neg hlt, if_neg hgt] at h2
          rw [ih h1 h2]

theorem charListLt_trans {a b c : List Char} (h1 : charListLt a b = true)
    (h2 : charListLt b c = true) : charListLt a c = true := by
  induction a generalizing b c with
  | nil =>
    cases c with
    | nil =>
      cases b with
      | nil => exact h1
      | cons y ys => simp [charListLt] at h2
    | cons z zs => simp [charListLt]
  | cons x xs ih =>
    cases b with
    | nil => simp [charListLt] at h1
    | cons y ys =>
      cases c with
      | nil => simp [charListLt] at h2
      | cons z zs =>
        rw [charListLt] at h1 h2 ⊢
        by_cases hxy : x.toNat < y.toNat
        · by_cases hyz : y.toNat < z.toNat
          · rw [if_pos (by omega : x.toNat < z.toNat)]
          · by_cases hzy : z.toNat < y.toNat
            · rw [if_neg hyz, if_pos hzy] at h2
              exact absurd h2 Bool.false_ne_true
            · rw [if_pos (by omega : x.toNat < z.toNat)]
        · by_cases hyx : y.toNat < x.toNat
          · rw [if_neg hxy, if_pos hyx] at h1
            exact absurd h1 Bool.false_ne_true
          · by_cases hyz : y.toNat < z.toNat
            · rw [if_pos (by omega : x.toNat < z.toNat)]
            · by_cases hzy : z.toNat < y.toNat
              · rw [if_neg hyz, if_pos hzy] at h2
                exact absurd h2 Bool.false_ne_true
              · rw [if_neg hxy, if_neg hyx] at h1
                rw [if_neg hyz, if_neg hzy] at h2
                rw [if_neg (by omega : ¬ x.toNat < z.toNat),
                  if_neg (by omega : ¬ z.toNat < x.toNat)]
                exact ih h1 h2

theorem strLtB_irrefl (a : String) : strLtB a a = false := charListLt_irrefl _

theorem strLtB_asymm {a b : String} (h : strLtB a b = true) :
    strLtB b a = false := charListLt_asymm h

theorem strLtB_trans {a b c : String} (h1 : strLtB a b = true)
    (h2 : strLtB b c = true) : strLtB a c = true := charListLt_trans h1 h2

theorem strLtB_string_eq {a b : String} (h1 : strLtB a b = false)
    (h2 : strLtB b a = false) : a = b := by
  cases a with
  | mk da =>
    cases b with
    | mk db =>
      have : da = db := charListLt_connect h1 h2
      rw [this]

theorem strLeB_eq_true_iff (a b : String) : strLeB a b = true ↔ strLtB b a = false := by
  simp [strLeB]

instance : IsTotal (String × String) pairLe := by
  constructor
  intro p q
  by_cases h1 : strLtB p.1 q.1 = true
  · exact Or.inl (Or.inl h1)
  · by_cases h2 : strLtB q.1 p.1 = true
    · exact Or.inr (Or.inl h2)
    · have heq : p.1 = q.1 :=
        strLtB_string_eq (Bool.not_eq_true _ ▸ h1) (Bool.not_eq_true _ ▸ h2)
      by_cases h3 : strLtB q.2 p.2 = true
      · exact Or.inr (Or.inr ⟨heq.symm, (strLeB_eq_true_iff _ _).mpr (strLtB_asymm h3)⟩)
      · exact Or.inl (Or.inr ⟨heq,
          (strLeB_eq_true_iff _ _).mpr (Bool.not_eq_true _ ▸ h3)⟩)

instance : IsTrans (String × String) pairLe := by
  constructor
  rintro p q r (h1 | ⟨he1, h1⟩) (h2 | ⟨he2, h2⟩)
  · exact Or.inl (strLtB_trans h1 h2)
  · exact Or.inl (by rw [← he2]; exact h1)
  · exact Or.inl (by rw [he1]; exact h2)
  · refine Or.inr ⟨he1.trans he2, ?_⟩
    rw [strLeB_eq_true_iff] at h1 h2 ⊢
    by_cases h3 : strLtB r.2 p.2 = true
    · exfalso
      by_cases h4 : strLtB p.2 q.2 = true
      · exact Bool.false_ne_true (h2 ▸ strLtB_trans h3 h4)
      · have hpq : p.2 = q.2 :=
          strLtB_string_eq (Bool.not_eq_true _ ▸ h4) h1
        rw [← hpq] at h2
        exact Bool.false_ne_true (h2 ▸ h3)
    · exact Bool.not_eq_true _ ▸ h3

instance : IsAntisymm (String × String) pairLe := by
  constructor
  rintro p q (h1 | ⟨he1, h1⟩) (h2 | ⟨he2, h2⟩)
  · rw [strLtB_asymm h1] at h2
    exact absurd h2 Bool.false_ne_true
  · rw [he2, strLtB_irrefl] at h1
    exact absurd h1 Bool.false_ne_true
  · rw [he1, strLtB_irrefl] at h2
    exact absurd h2 Bool.false_ne_true
  · have hv : p.2 = q.2 := by
      rw [strLeB_eq_true_iff] at h1 h2
      exact strLtB_string_eq h2 h1
    exact Prod.ext he1 hv

/-- A structured record: a Python `dict[str, str]` as an insertion-ordered
association list. -/
abbrev RecordDict := List (String × String)

/-- `tuple(sorted(item.items()))`: the dedup key `dedupe_list` uses for a
record, sorting the key-value pairs lexicographically. -/
def sortPairs (r : RecordDict) : RecordDict := List.insertionSort pairLe r

/-- `dedupe_list` from `ActivityState.merge_with`: drop later records whose
sorted key-value pairs were already seen, preserving order. -/
def dedupe_list (items : List RecordDict) : List RecordDict :=
  dedupeByAux sortPairs (fun _ => true) [] items

/-- `dedupe_strings` from `ActivityState.merge_with`: drop later strings with
an already seen `lower().strip()` key and strings whose key is empty,
preserving order. -/
def dedupe_strings (items : List String) : List String :=
  dedupeByAux norm_key (fun k => decide (k ≠ "")) [] items

/-! ### The ActivityState model (src/refineflow/core/state.py)

Python dicts are insertion-ordered mappings with unique keys; we model them
as association lists with the dict operations below.  `canvas` is
`dict[str, Any]` in the source; the merge only tests it for emptiness and
copies it wholesale, so its values are modelled as strings. -/

/-- The categorized `open_questions` mapping. -/
abbrev OQMap := List (String × List String)

/-- Python dict lookup `m[k]` / `m.get(k)`: value of the first (unique)
entry with key `k`. -/
def alGet {β : Type} (m : List (String × β)) (k : String) : Option β :=
  (m.find? fun p => p.1 = k).map Prod.snd

/-- Python dict assignment `m[k] = v`: replace the value of the existing
entry in place, else append a new entry at the end (dict insertion order). -/
def alSet {β : Type} (m : List (String × β)) (k : String) (v : β) :
    List (String × β) :=
  match m with
  | [] => [(k, v)]
  | (k1, v1) :: rest =>
    if k1 = k then (k, v) :: rest else (k1, v1) :: alSet rest k v

/-- The structured state document, field for field after
`class ActivityState(BaseModel)`. -/
@[ext]
structure ActivityState where
  summary : String
  action_items : List RecordDict
  open_questions : OQMap
  decisions : List RecordDict
  functional_requirements : List String
  non_functional_requirements : List String
  identified_risks : List RecordDict
  dependencies : List RecordDict
  metrics : List RecordDict
  costs : List RecordDict
  information_gaps : List String
  canvas : List (String × String)
  last_updated : String
deriving DecidableEq

/-- The `open_questions` merge loop of `merge_with`: start from a copy of
the base mapping and fold over the incoming mapping's items; an existing
category gets `dedupe_strings(base list ++ incoming list)`, a new category
gets `dedupe_strings(incoming list)` and is appended. -/
def merge_questions (base incoming : OQMap) : OQMap :=
  incoming.foldl
    (fun acc p =>
      match alGet acc p.1 with
      | some existing => alSet acc p.1 (dedupe_strings (existing ++ p.2))
      | none => alSet acc p.1 (dedupe_strings p.2))
    base

/-- `ActivityState.merge_with`, field for field from the source: latest
non-empty summary and canvas win, list fields are base ++ incoming then
deduped, `open_questions` merge by category, incoming `last_updated` always
wins. -/
def merge_with (self new_state : ActivityState) : ActivityState where
  summary := if new_state.summary = "" then self.summary else new_state.summary
  action_items := dedupe_list (self.action_items ++ new_state.action_items)
  open_questions := merge_questions self.open_questions new_state.open_questions
  decisions := dedupe_list (self.decisions ++ new_state.decisions)
  functional_requirements :=
    dedupe_strings (self.functional_requirements ++ new_state.functional_requirements)
  non_functional_requirements :=
    dedupe_strings (self.non_functional_requirements ++ new_state.non_functional_requirements)
  identified_risks := dedupe_list (self.identified_risks ++ new_state.identified_risks)
  dependencies := dedupe_list (self.dependencies ++ new_state.dependencies)
  metrics := dedupe_list (self.metrics ++ new_state.metrics)
  costs := dedupe_list (self.costs ++ new_state.costs)
  information_gaps :=
    dedupe_strings (self.information_gaps ++ new_state.information_gaps)
  canvas := if new_state.canvas = [] then self.canvas else new_state.canvas
  last_updated := new_state.last_updated

/-- The two historical shapes the persisted `open_questions` value can take:
a flat list of questions (legacy) or a categorized mapping. -/
inductive OpenQuestionsRaw where
  | strlist : List String → OpenQuestionsRaw
  | mapping : OQMap → OpenQuestionsRaw
deriving DecidableEq

/-- `ActivityState.migrate_open_questions` (a pydantic before-validator),
restricted to the `open_questions` value it inspects: a list is wrapped as
`{"Geral": list}`, anything that is already a mapping passes through
unchanged. -/
def migrate_open_questions : OpenQuestionsRaw → OpenQuestionsRaw
  | .strlist l => .mapping [("Geral", l)]
  | .mapping m => .mapping m

/-- Dict lookup on a state's `open_questions`. -/
def oqGet (st : ActivityState) (cat : String) : Option (List String) :=
  alGet st.open_questions cat

/-- A category's question list, defaulting to the empty list when the
category is absent (used to phrase the merge claims). -/
def oqListOf (st : ActivityState) (cat : String) : List String :=
  (alGet st.open_questions cat).getD []

/-- The all-empty state a fresh activity starts from. -/
def emptyState : ActivityState where
  summary := ""
  action_items := []
  open_questions := []
  decisions := []
  functional_requirements := []
  non_functional_requirements := []
  identified_risks := []
  dependencies := []
  metrics := []
  costs := []
  information_gaps := []
  canvas := []
  last_updated := ""

section AssocLemmas

variable {β : Type}

theorem alGet_alSet_self (m : List (String × β)) (k : String) (v : β) :
    alGet (alSet m k v) k = some v := by
  induction m with
  | nil => simp [alGet, alSet, List.find?]
  | cons p rest ih =>
    obtain ⟨k1, v1⟩ := p
    by_cases h : k1 = k
    · simp [alSet, h, alGet, List.find?]
    · simp only [alSet, if_neg h]
      simpa [alGet, List.find?, h] using ih

theorem alGet_alSet_ne (m : List (String × β)) (k : String) (v : β)
    (c : String) (h : c ≠ k) : alGet (alSet m k v) c = alGet m c := by
  induction m with
  | nil => simp [alGet, alSet, List.find?, Ne.symm h]
  | cons p rest ih =>
    obtain ⟨k1, v1⟩ := p
    by_cases h1 : k1 = k
    · subst h1
      simp [alSet, alGet, List.find?, Ne.symm h]
    · by_cases h2 : k1 = c
      · subst h2
        simp [alSet, if_neg h1, alGet, List.find?]
      · simp only [alSet, if_neg h1]
        simpa [alGet, List.find?, h2] using ih

theorem alSet_eq_self {m : List (String × β)} {k : String} {v : β}
    (h : alGet m k = some v) : alSet m k v = m := by
  induction m with
  | nil => simp [alGet, List.find?] at h
  | cons p rest ih =>
    obtain ⟨k1, v1⟩ := p
    by_cases h1 : k1 = k
    · subst h1
      simp [alGet, List.find?] at h
      simp [alSet, h]
    · simp only [alGet, List.find?, h1, decide_eq_false h1] at h
      simp only [alSet, if_neg h1]
      rw [ih h]

theorem alGet_eq_none_iff (m : List (String × β)) (c : String) :
    alGet m c = none ↔ c ∉ m.map Prod.fst := by
  induction m with
  | nil => simp [alGet, List.find?]
  | cons p rest ih =>
    obtain ⟨k1, v1⟩ := p
    by_cases h : k1 = c
    · subst h
      simp [alGet, List.find?]
    · simp only [alGet, List.find?, decide_eq_false h] at *
      simp only [List.map_cons, List.mem_cons]
      constructor
      · intro hn hc
        rcases hc with hc | hc
        · exact h hc.symm
        · exact (ih.mp hn) hc
      · intro hn
        exact ih.mpr fun hc => hn (Or.inr hc)

theorem alGet_of_mem_nodup {m : List (String × β)} {k : String} {v : β}
    (hmem : (k, v) ∈ m) (hnd : (m.map Prod.fst).Nodup) :
    alGet m k = some v := by
  induction m with
  | nil => simp at hmem
  | cons p rest ih =>
    obtain ⟨k1, v1⟩ := p
    rcases List.mem_cons.mp hmem with heq | hmem'
    · rw [Prod.mk.injEq] at heq
      obtain ⟨rfl, rfl⟩ := heq
      simp [alGet, List.find?]
    · have hk : k1 ≠ k := by
        intro h
        subst h
        have : k1 ∈ rest.map Prod.fst := List.mem_map.mpr ⟨(k1, v), hmem', rfl⟩
        exact (List.nodup_cons.mp (by simpa using hnd)).1 this
      simp only [alGet, List.find?, decide_eq_false hk]
      exact ih hmem' (List.nodup_cons.mp (by simpa using hnd)).2

end AssocLemmas

section MergeQuestionsLemmas

/-- How `merge_questions` answers a lookup, provided the incoming mapping
has unique keys (every Python dict does): an incoming category is combined
with the base entry when one exists, otherwise deduped alone; a category
missing from incoming keeps its base answer. -/
theorem alGet_merge_questions (base inc : OQMap)
    (hinc : (inc.map Prod.fst).Nodup) (c : String) :
    alGet (merge_questions base inc) c =
      match alGet inc c, alGet base c with
      | some qs, some ex => some (dedupe_strings (ex ++ qs))
      | some qs, none => some (dedupe_strings qs)
      | none, o => o := by
  induction inc generalizing base with
  | nil => simp [merge_questions, alGet, List.find?]
  | cons p rest ih =>
    obtain ⟨k, qs⟩ := p
    have hk : k ∉ rest.map Prod.fst := (List.nodup_cons.mp (by simpa using hinc)).1
    have hrest : (rest.map Prod.fst).Nodup := (List.nodup_cons.mp (by simpa using hinc)).2
    have hstep : merge_questions base ((k, qs) :: rest) =
        merge_questions
          (match alGet base k with
           | some existing => alSet base k (dedupe_strings (existing ++ qs))
           | none => alSet base k (dedupe_strings qs)) rest := by
      simp [merge_questions]
    rw [hstep, ih _ hrest]
    by_cases hc : c = k
    · subst hc
      have hrnone : alGet rest c = none := (alGet_eq_none_iff rest c).mpr hk
      have hincc : alGet ((c, qs) :: rest) c = some qs := by
        simp [alGet, List.find?]
      rw [hrnone, hincc]
      cases hbase : alGet base c with
      | none => simp [hbase, alGet_alSet_self]
      | some ex => simp [hbase, alGet_alSet_self]
    · have hincc : alGet ((k, qs) :: rest) c = alGet rest c := by
        simp [alGet, List.find?, decide_eq_false (Ne.symm hc)]
      rw [hincc]
      cases hbase : alGet base k with
      | none => rw [alGet_alSet_ne _ _ _ _ hc]
      | some ex => rw [alGet_alSet_ne _ _ _ _ hc]

theorem foldl_id_of {γ δ : Type} (f : γ → δ → γ) (acc : γ) (l : List δ)
    (h : ∀ x ∈ l, f acc x = acc) : l.foldl f acc = acc := by
  induction l with
  | nil => rfl
  | cons x t ih =>
    rw [List.foldl_cons, h x (List.mem_cons_self _ _)]
    exact ih fun y hy => h y (List.mem_cons_of_mem _ hy)

/-- Merging the same incoming question mapping a second time changes
nothing. -/
theorem merge_questions_self (base inc : OQMap)
    (hinc : (inc.map Prod.fst).Nodup) :
    merge_questions (merge_questions base inc) inc =
      merge_questions base inc := by
  apply foldl_id_of
  intro p hp
  obtain ⟨k, qs⟩ := p
  have hgetinc : alGet inc k = some qs := alGet_of_mem_nodup hp hinc
  have hchar := alGet_merge_questions base inc hinc k
  rw [hgetinc] at hchar
  cases hbase : alGet base k with
  | some ex =>
    rw [hbase] at hchar
    simp only at hchar
    rw [hchar]
    simp only
    have hded : dedupe_strings (dedupe_strings (ex ++ qs) ++ qs) =
        dedupe_strings (ex ++ qs) := dedupe_dedupe_append ex qs
    rw [hded]
    exact alSet_eq_self hchar
  | none =>
    rw [hbase] at hchar
    simp only at hchar
    rw [hchar]
    simp only
    have hded : dedupe_strings (dedupe_strings qs ++ qs) =
        dedupe_strings qs := by
      have := @dedupe_dedupe_append String String _ norm_key
        (fun k => decide (k ≠ "")) [] qs
      simpa [dedupe_strings] using this
    rw [hded]
    exact alSet_eq_self hchar

end MergeQuestionsLemmas

/-! ### Whitespace and normalization facts -/

theorem toLower_of_isPySpace {c : Char} (h : isPySpace c = true) :
    Char.toLower c = c := by
  simp only [isPySpace, Bool.or_eq_true, beq_iff_eq] at h
  rcases h with ((((h | h) | h) | h) | h) | h <;> subst h <;> decide

theorem stringMk_eq_empty_iff (l : List Char) : String.mk l = "" ↔ l = [] := by
  constructor
  · intro h
    have hd : (String.mk l).data = ("" : String).data := by rw [h]
    simpa using hd
  · intro h
    rw [h]

theorem stringMk_toList (s : String) : String.mk s.toList = s := by
  cases s
  rfl

theorem stripChars_eq_nil {l : List Char} (h : stripChars l = []) :
    ∀ c ∈ l, isPySpace c = true := by
  have h1 : (l.dropWhile isPySpace).reverse.dropWhile isPySpace = [] := by
    unfold stripChars at h
    rwa [List.reverse_eq_nil_iff] at h
  have h2 : ∀ x ∈ l.dropWhile isPySpace, isPySpace x = true := fun x hx =>
    (List.dropWhile_eq_nil_iff.mp h1) x (List.mem_reverse.mpr hx)
  intro c hc
  rw [← List.takeWhile_append_dropWhile (p := isPySpace) (l := l)] at hc
  rcases List.mem_append.mp hc with hc | hc
  · exact List.mem_takeWhile_imp hc
  · exact h2 c hc

theorem map_toLower_of_all_space {l : List Char}
    (h : ∀ c ∈ l, isPySpace c = true) : l.map Char.toLower = l := by
  induction l with
  | nil => rfl
  | cons c t ih =>
    simp only [List.map_cons]
    rw [toLower_of_isPySpace (h c (List.mem_cons_self _ _)),
      ih fun x hx => h x (List.mem_cons_of_mem _ hx)]

/-- A string that strips to empty also has an empty dedup key, since
lowercasing fixes whitespace characters. -/
theorem norm_key_eq_empty_of_strip {s : String} (h : py_strip s = "") :
    norm_key s = "" := by
  have hall : ∀ c ∈ s.toList, isPySpace c = true :=
    stripChars_eq_nil ((stringMk_eq_empty_iff _).mp h)
  have hlow : py_lower s = s := by
    unfold py_lower
    rw [map_toLower_of_all_space hall, stringMk_toList]
  unfold norm_key
  rw [hlow]
  exact h

/-! ### Derived dedup facts used by the claims -/

theorem dedupe_strings_clean (l : List String) :
    (dedupe_strings l).Pairwise (fun x y => norm_key x ≠ norm_key y) ∧
      ∀ x ∈ dedupe_strings l, py_strip x ≠ "" := by
  constructor
  · exact pairwise_key_dedupeByAux [] l
  · intro x hx hstrip
    have hk := (of_mem_dedupeByAux hx).1
    rw [decide_eq_true_eq] at hk
    exact hk (norm_key_eq_empty_of_strip hstrip)

theorem dedupe_list_append_self (xs ys : List RecordDict) :
    dedupe_list (dedupe_list (xs ++ ys) ++ ys) = dedupe_list (xs ++ ys) :=
  dedupe_dedupe_append xs ys

theorem dedupe_strings_append_self (xs ys : List String) :
    dedupe_strings (dedupe_strings (xs ++ ys) ++ ys) = dedupe_strings (xs ++ ys) :=
  dedupe_dedupe_append xs ys

theorem dedupe_strings_sublist (l : List String) :
    (dedupe_strings l).Sublist l := dedupeByAux_sublist [] l

theorem sortPairs_perm_invariant {r r2 : RecordDict} (h : r.Perm r2) :
    sortPairs r = sortPairs r2 := by
  unfold sortPairs
  refine List.eq_of_perm_of_sorted ?_ (List.sorted_insertionSort pairLe r)
    (List.sorted_insertionSort pairLe r2)
  exact (List.perm_insertionSort pairLe r).trans
    (h.trans (List.perm_insertionSort pairLe r2).symm)

theorem sortPairs_eq_key_set {r r2 : RecordDict} (h : sortPairs r = sortPairs r2)
    (k : String) : k ∈ r.map Prod.fst ↔ k ∈ r2.map Prod.fst := by
  have h' : List.insertionSort pairLe r = List.insertionSort pairLe r2 := h
  have h1 : List.Perm r (List.insertionSort pairLe r) :=
    (List.perm_insertionSort pairLe r).symm
  rw [h'] at h1
  have hperm : r.Perm r2 := h1.trans (List.perm_insertionSort pairLe r2)
  exact (hperm.map Prod.fst).mem_iff

/-- Spec §3 well-formedness of a state's question store: `open_questions`
is a dict (unique category keys) and within any one category's list no two
entries are equal after case-normalization and trimming. -/
def WfQuestions (st : ActivityState) : Prop :=
  (st.open_questions.map Prod.fst).Nodup ∧
    ∀ p ∈ st.open_questions, p.2.Pairwise fun x y => norm_key x ≠ norm_key y

instance (st : ActivityState) : Decidable (WfQuestions st) :=
  inferInstanceAs (Decidable ((st.open_questions.map Prod.fst).Nodup ∧
    ∀ p ∈ st.open_questions, p.2.Pairwise fun x y => norm_key x ≠ norm_key y))

theorem mem_of_alGet_eq_some {β : Type} {m : List (String × β)} {k : String}
    {v : β} (h : alGet m k = some v) : (k, v) ∈ m := by
  unfold alGet at h
  cases hf : m.find? fun p => p.1 = k with
  | none =>
    rw [hf] at h
    exact Option.noConfusion h
  | some p0 =>
    rw [hf] at h
    have hv : p0.2 = v := Option.some.inj h
    have hp := List.find?_some hf
    rw [decide_eq_true_eq] at hp
    have hm := List.mem_of_find?_eq_some hf
    have hp0 : p0 = (k, v) := by
      obtain ⟨p1, p2⟩ := p0
      simp_all
    rw [hp0] at hm
    exact hm

/-! ### Claims about the merge engine -/

/-- Claim C4 (confirmed): for all ActivityStates `a` and `b`, each
string-list field of `merge_with a b` — functional_requirements,
non_functional_requirements, information_gaps — contains no two entries
that are equal after lowercasing and trimming, and no entry that is empty
after trimming.  (Proved for all states, hence in particular for
well-formed ones.) -/
theorem c4_merge_string_fields_deduped (a b : ActivityState) :
    ((merge_with a b).functional_requirements.Pairwise
        (fun x y => norm_key x ≠ norm_key y) ∧
      ∀ x ∈ (merge_with a b).functional_requirements, py_strip x ≠ "") ∧
    ((merge_with a b).non_functional_requirements.Pairwise
        (fun x y => norm_key x ≠ norm_key y) ∧
      ∀ x ∈ (merge_with a b).non_functional_requirements, py_strip x ≠ "") ∧
    ((merge_with a b).information_gaps.Pairwise
        (fun x y => norm_key x ≠ norm_key y) ∧
      ∀ x ∈ (merge_with a b).information_gaps, py_strip x ≠ "") :=
  ⟨dedupe_strings_clean _, dedupe_strings_clean _, dedupe_strings_clean _⟩

/-- Claim C5 (confirmed): each record-list field of `merge_with a b`
contains no two records with identical sorted key-value pairs; the sorted
key-value pairs are invariant under reordering a record's fields, and
records with equal sorted pairs have the same key set (so a record with an
extra or missing key is never a duplicate of one lacking it). -/
theorem c5_merge_record_fields_deduped (a b : ActivityState) :
    ((merge_with a b).action_items.Pairwise
        (fun r r2 => sortPairs r ≠ sortPairs r2) ∧
      (merge_with a b).decisions.Pairwise
        (fun r r2 => sortPairs r ≠ sortPairs r2) ∧
      (merge_with a b).identified_risks.Pairwise
        (fun r r2 => sortPairs r ≠ sortPairs r2) ∧
      (merge_with a b).dependencies.Pairwise
        (fun r r2 => sortPairs r ≠ sortPairs r2) ∧
      (merge_with a b).metrics.Pairwise
        (fun r r2 => sortPairs r ≠ sortPairs r2) ∧
      (merge_with a b).costs.Pairwise
        (fun r r2 => sortPairs r ≠ sortPairs r2)) ∧
    (∀ r r2 : RecordDict, r.Perm r2 → sortPairs r = sortPairs r2) ∧
    (∀ r r2 : RecordDict, sortPairs r = sortPairs r2 →
      ∀ k, k ∈ r.map Prod.fst ↔ k ∈ r2.map Prod.fst) :=
  ⟨⟨pairwise_key_dedupeByAux [] _, pairwise_key_dedupeByAux [] _,
      pairwise_key_dedupeByAux [] _, pairwise_key_dedupeByAux [] _,
      pairwise_key_dedupeByAux [] _, pairwise_key_dedupeByAux [] _⟩,
    fun _ _ h => sortPairs_perm_invariant h,
    fun _ _ h k => sortPairs_eq_key_set h k⟩

/-- Claim C6 (confirmed): the construction-time `open_questions`
normalization wraps a flat list as `{"Geral": list}`, passes a mapping
through unchanged (including empty-list categories), and is idempotent. -/
theorem c6_migrate_open_questions_spec :
    (∀ l : List String,
        migrate_open_questions (.strlist l) = .mapping [("Geral", l)]) ∧
    (∀ m : OQMap, migrate_open_questions (.mapping m) = .mapping m) ∧
    (∀ x : OpenQuestionsRaw,
        migrate_open_questions (migrate_open_questions x) =
          migrate_open_questions x) := by
  refine ⟨fun l => rfl, fun m => rfl, fun x => ?_⟩
  cases x <;> rfl

/-- Claim C8 (confirmed): `merge_with a b` keeps `b.summary` when it is
non-empty and falls back to `a.summary` when `b.summary` is empty. -/
theorem c8_merge_summary_rule (a b : ActivityState) :
    (b.summary ≠ "" → (merge_with a b).summary = b.summary) ∧
    (b.summary = "" → (merge_with a b).summary = a.summary) := by
  constructor
  · intro h
    simp [merge_with, h]
  · intro h
    simp [merge_with, h]

/-- Witness for C8: concrete states exercising both branches. -/
theorem c8_merge_summary_rule_witness :
    (merge_with { emptyState with summary := "A" }
        { emptyState with summary := "B" }).summary = "B" ∧
    (merge_with { emptyState with summary := "A" } emptyState).summary = "A" :=
  ⟨(c8_merge_summary_rule { emptyState with summary := "A" }
      { emptyState with summary := "B" }).1 (by decide),
    (c8_merge_summary_rule { emptyState with summary := "A" } emptyState).2
      (by decide)⟩

/-- Claim C9 (confirmed): re-merging the same incoming state is a no-op on
every field.  The hypothesis states that the incoming `open_questions`
mapping has unique category keys, which every Python dict has by
construction. -/
theorem c9_remerge_noop (a b : ActivityState)
    (hb : (b.open_questions.map Prod.fst).Nodup) :
    merge_with (merge_with a b) b = merge_with a b := by
  refine ActivityState.ext ?_ ?_ ?_ ?_ ?_ ?_ ?_ ?_ ?_ ?_ ?_ ?_ ?_
  · by_cases h : b.summary = "" <;> simp [merge_with, h]
  · exact dedupe_list_append_self a.action_items b.action_items
  · exact merge_questions_self a.open_questions b.open_questions hb
  · exact dedupe_list_append_self a.decisions b.decisions
  · exact dedupe_strings_append_self a.functional_requirements
      b.functional_requirements
  · exact dedupe_strings_append_self a.non_functional_requirements
      b.non_functional_requirements
  · exact dedupe_list_append_self a.identified_risks b.identified_risks
  · exact dedupe_list_append_self a.dependencies b.dependencies
  · exact dedupe_list_append_self a.metrics b.metrics
  · exact dedupe_list_append_self a.costs b.costs
  · exact dedupe_strings_append_self a.information_gaps b.information_gaps
  · by_cases h : b.canvas = [] <;> simp [merge_with, h]
  · rfl

/-- Witness for C9 at concrete states with overlapping categories,
requirements, records and a case-variant duplicate. -/
theorem c9_remerge_noop_witness :
    ((({ emptyState with
          summary := "B",
          functional_requirements := ["Req 1", "Req 2"],
          action_items := [[("action", "x"), ("owner", "y")]],
          open_questions := [("Frontend", ["q1", "Q2"]), ("Backend", ["Q3"])],
          last_updated := "t2" } : ActivityState).open_questions.map
        Prod.fst).Nodup) ∧
    merge_with
        (merge_with
          { emptyState with
            summary := "A",
            functional_requirements := ["Req 1"],
            open_questions := [("Frontend", ["Q1"])] }
          { emptyState with
            summary := "B",
            functional_requirements := ["Req 1", "Req 2"],
            action_items := [[("action", "x"), ("owner", "y")]],
            open_questions := [("Frontend", ["q1", "Q2"]), ("Backend", ["Q3"])],
            last_updated := "t2" })
        { emptyState with
          summary := "B",
          functional_requirements := ["Req 1", "Req 2"],
          action_items := [[("action", "x"), ("owner", "y")]],
          open_questions := [("Frontend", ["q1", "Q2"]), ("Backend", ["Q3"])],
          last_updated := "t2" } =
      merge_with
        { emptyState with
          summary := "A",
          functional_requirements := ["Req 1"],
          open_questions := [("Frontend", ["Q1"])] }
        { emptyState with
          summary := "B",
          functional_requirements := ["Req 1", "Req 2"],
          action_items := [[("action", "x"), ("owner", "y")]],
          open_questions := [("Frontend", ["q1", "Q2"]), ("Backend", ["Q3"])],
          last_updated := "t2" } :=
  ⟨by decide, c9_remerge_noop _ _ (by decide)⟩

/-- Claim C1 counterexample: with the spec's §3 well-formedness (unique
category keys, no two case-insensitive/trim-equal entries per category), a
category present only in the base whose single question is whitespace-only
passes through unchanged, while the claim demands the dedupe of the
concatenation, which drops the whitespace-only entry. -/
theorem c1_counterexample :
    WfQuestions { emptyState with open_questions := [("Geral", [" "])] } ∧
    WfQuestions emptyState ∧
    oqGet (merge_with { emptyState with open_questions := [("Geral", [" "])] }
        emptyState) "Geral" ≠
      some (dedupe_strings
        (oqListOf { emptyState with open_questions := [("Geral", [" "])] }
            "Geral" ++
          oqListOf emptyState "Geral")) := by
  refine ⟨by decide, by decide, ?_⟩
  decide

/-- Claim C1 (amended): strengthen well-formedness of the base by requiring
that no question is empty after trimming (the only change the
counterexample forces); then every category present in base or incoming is
mapped to the case-insensitive/trim dedupe of base's list concatenated with
incoming's list, a missing side treated as empty. -/
theorem c1_merge_open_questions_amended (a b : ActivityState)
    (hb : (b.open_questions.map Prod.fst).Nodup)
    (ha : ∀ p ∈ a.open_questions,
      p.2.Pairwise fun x y => norm_key x ≠ norm_key y)
    (ha2 : ∀ p ∈ a.open_questions, ∀ x ∈ p.2, norm_key x ≠ "")
    (cat : String) (hcat : oqGet a cat ≠ none ∨ oqGet b cat ≠ none) :
    oqGet (merge_with a b) cat =
      some (dedupe_strings (oqListOf a cat ++ oqListOf b cat)) := by
  have hchar := alGet_merge_questions a.open_questions b.open_questions hb cat
  show alGet (merge_questions a.open_questions b.open_questions) cat = _
  rw [hchar]
  cases hbc : alGet b.open_questions cat with
  | some qs =>
    cases hac : alGet a.open_questions cat with
    | some ex => simp [oqListOf, hac, hbc]
    | none => simp [oqListOf, hac, hbc]
  | none =>
    cases hac : alGet a.open_questions cat with
    | some ex =>
      simp only [oqListOf, hac, hbc, Option.getD_some, Option.getD_none,
        List.append_nil]
      have hmem : (cat, ex) ∈ a.open_questions := mem_of_alGet_eq_some hac
      have hfix : dedupe_strings ex = ex := by
        refine dedupeByAux_eq_self (ha _ hmem) (fun x hx => ?_) (by simp)
        exact decide_eq_true (ha2 _ hmem x hx)
      rw [hfix]
    | none =>
      exfalso
      rcases hcat with hcz | hcz
      · exact hcz hac
      · exact hcz hbc

/-- Witness for the amended C1 at concrete states: a shared category with a
case-variant duplicate across the two sides. -/
theorem c1_merge_open_questions_amended_witness :
    oqGet (merge_with { emptyState with open_questions := [("G", ["Q1"])] }
        { emptyState with open_questions := [("G", ["q1", "Q2"])] }) "G" =
      some (dedupe_strings
        (oqListOf { emptyState with open_questions := [("G", ["Q1"])] } "G" ++
          oqListOf { emptyState with open_questions := [("G", ["q1", "Q2"])] }
            "G")) :=
  c1_merge_open_questions_amended _ _ (by decide) (by decide) (by decide) "G"
    (Or.inl (by decide))

/-- Claim C7 counterexample: a question of `b` that is a case variant of a
question of `a` in the same category does not itself appear in the merged
list (only `a`'s first-seen spelling does). -/
theorem c7_counterexample :
    "foo" ∈ dedupe_strings
        (oqListOf { emptyState with open_questions := [("Geral", ["foo"])] }
          "Geral") ∧
    "foo" ∉ (oqGet (merge_with
        { emptyState with open_questions := [("Geral", ["Foo"])] }
        { emptyState with open_questions := [("Geral", ["foo"])] })
          "Geral").getD [] := by
  refine ⟨by decide, ?_⟩
  decide

/-- Claim C7 (amended): for every category of `a` or `b`, `a`'s deduped
questions appear literally and in order (a sublist of the merged list), and
each of `b`'s deduped questions appears up to case-insensitive/trim
equality; the merged list is a subsequence of `a`'s list followed by `b`'s,
hence in first-seen order. -/
theorem c7_merge_questions_preserved_amended (a b : ActivityState)
    (hb : (b.open_questions.map Prod.fst).Nodup)
    (cat : String) (hcat : oqGet a cat ≠ none ∨ oqGet b cat ≠ none) :
    (dedupe_strings (oqListOf a cat)).Sublist
        ((oqGet (merge_with a b) cat).getD []) ∧
    (∀ x ∈ dedupe_strings (oqListOf b cat),
      ∃ y ∈ (oqGet (merge_with a b) cat).getD [], norm_key y = norm_key x) ∧
    ((oqGet (merge_with a b) cat).getD []).Sublist
        (oqListOf a cat ++ oqListOf b cat) := by
  have hchar := alGet_merge_questions a.open_questions b.open_questions hb cat
  have hshow : oqGet (merge_with a b) cat =
      alGet (merge_questions a.open_questions b.open_questions) cat := rfl
  rw [hshow, hchar]
  cases hbc : alGet b.open_questions cat with
  | some qs =>
    cases hac : alGet a.open_questions cat with
    | some ex =>
      simp only [oqListOf, hac, hbc, Option.getD_some]
      refine ⟨?_, ?_, dedupe_strings_sublist _⟩
      · have happ := @dedupeByAux_append String String _ norm_key
          (fun k => decide (k ≠ "")) [] ex qs
        show (dedupe_strings ex).Sublist (dedupe_strings (ex ++ qs))
        unfold dedupe_strings
        rw [happ]
        exact List.sublist_append_left _ _
      · intro x hx
        have hkeep := (of_mem_dedupeByAux hx).1
        have hmem : norm_key x ∈ (ex ++ qs).map norm_key :=
          List.mem_map.mpr ⟨x, List.mem_append_right _
            ((dedupe_strings_sublist qs).mem hx), rfl⟩
        have := @mem_key_dedupeByAux String String _ norm_key
          (fun k => decide (k ≠ "")) (norm_key x) [] (ex ++ qs) hkeep hmem
          (by simp)
        rcases List.mem_map.mp this with ⟨y, hy, hky⟩
        exact ⟨y, hy, hky⟩
    | none =>
      simp only [oqListOf, hac, hbc, Option.getD_some, Option.getD_none,
        List.nil_append]
      refine ⟨by simp [dedupe_strings, dedupeByAux], ?_,
        dedupe_strings_sublist _⟩
      intro x hx
      exact ⟨x, hx, rfl⟩
  | none =>
    cases hac : alGet a.open_questions cat with
    | some ex =>
      simp only [oqListOf, hac, hbc, Option.getD_some, Option.getD_none,
        List.append_nil]
      exact ⟨dedupe_strings_sublist ex,
        by simp [dedupe_strings, dedupeByAux], List.Sublist.refl ex⟩
    | none =>
      exfalso
      rcases hcat with hcz | hcz
      · exact hcz hac
      · exact hcz hbc

/-- Witness for the amended C7 at concrete states with a cross-side case
variant. -/
theorem c7_merge_questions_preserved_amended_witness :
    (dedupe_strings (oqListOf
        { emptyState with open_questions := [("Geral", ["Foo"])] }
        "Geral")).Sublist
      ((oqGet (merge_with
          { emptyState with open_questions := [("Geral", ["Foo"])] }
          { emptyState with open_questions := [("Geral", ["foo", "Bar"])] })
        "Geral").getD []) ∧
    (∀ x ∈ dedupe_strings (oqListOf
        { emptyState with open_questions := [("Geral", ["foo", "Bar"])] }
        "Geral"),
      ∃ y ∈ (oqGet (merge_with
          { emptyState with open_questions := [("Geral", ["Foo"])] }
          { emptyState with open_questions := [("Geral", ["foo", "Bar"])] })
        "Geral").getD [], norm_key y = norm_key x) ∧
    ((oqGet (merge_with
        { emptyState with open_questions := [("Geral", ["Foo"])] }
        { emptyState with open_questions := [("Geral", ["foo", "Bar"])] })
      "Geral").getD []).Sublist
      (oqListOf { emptyState with open_questions := [("Geral", ["Foo"])] }
          "Geral" ++
        oqListOf
          { emptyState with open_questions := [("Geral", ["foo", "Bar"])] }
          "Geral") :=
  c7_merge_questions_preserved_amended _ _ (by decide) "Geral"
    (Or.inl (by decide))

/-! ### The Jira structure validator
(src/refineflow/llm/processor_langchain.py, validate_jira_structure)

The validator lowercases the text and runs a handful of regex scans.  The
three patterns are specialised here into executable scanners with Python's
`re` semantics (leftmost match, greedy with backtracking, scan resumes
after each non-empty match).  For these patterns the usual greedy
backtracking is determinate: whenever a greedy sub-match fails, every
shorter alternative leaves a character that cannot start the required
continuation, so taking the maximal run is exact. -/

def backendChars : List Char := "backend".toList

def frontendChars : List Char := "frontend".toList

def subtarefaChars : List Char := "subtarefa".toList

/-- Consume up to `n` further leading hash characters (the `{1,3}` bound of
the header pattern, after the first mandatory hash). -/
def dropExtraHashes : Nat → List Char → List Char
  | 0, l => l
  | _ + 1, [] => []
  | n + 1, c :: t => if c = '#' then dropExtraHashes n t else c :: t

/-- The optional trailing ordinal of a header: `(?:\s+\d+)?`, greedy.
Returns the scan position after the (possibly empty) group. -/
def matchOptNum (s : List Char) : List Char :=
  match s with
  | c :: _ =>
    if isPySpace c then
      let s1 := s.dropWhile isPySpace
      match s1 with
      | d :: _ => if d.isDigit then s1.dropWhile Char.isDigit else s
      | [] => s
    else s
  | [] => s

/-- After the hashes: `\s*(?:subtarefa\s+)?WORD(?:\s+\d+)?`.  The optional
`subtarefa` group is tried first and dropped on failure, exactly as the
regex engine backtracks. -/
def matchTail (word : List Char) (s : List Char) : Option (List Char) :=
  let s1 := s.dropWhile isPySpace
  let withSub : Option (List Char) :=
    if subtarefaChars.isPrefixOf s1 then
      let s2 := s1.drop subtarefaChars.length
      match s2 with
      | c :: _ =>
        if isPySpace c then
          let s3 := s2.dropWhile isPySpace
          if word.isPrefixOf s3 then some (s3.drop word.length) else none
        else none
      | [] => none
    else none
  match withSub with
  | some r => some (matchOptNum r)
  | none =>
    if word.isPrefixOf s1 then some (matchOptNum (s1.drop word.length))
    else none

/-- One attempt of the header pattern
`#{1,3}\s*(?:subtarefa\s+)?WORD(?:\s+\d+)?` anchored at the current
position; `some rest` is the scan position after the match. -/
def matchHeaderAt (word : List Char) (s : List Char) : Option (List Char) :=
  match s with
  | c :: rest => if c = '#' then matchTail word (dropExtraHashes 2 rest) else none
  | [] => none

/-- `re.findall` scan for headers, counting non-overlapping matches from
the left; the fuel is one more than the text length, which always suffices
because each step consumes at least one character. -/
def countHeadersF (word : List Char) : Nat → List Char → Nat
  | 0, _ => 0
  | _ + 1, [] => 0
  | fuel + 1, c :: t =>
    match matchHeaderAt word (c :: t) with
    | some rest => 1 + countHeadersF word fuel rest
    | none => countHeadersF word fuel t

def countHeaders (word : List Char) (s : List Char) : Nat :=
  countHeadersF word (s.length + 1) s

/-- One attempt of the estimate pattern
`(\d+(?:\.\d+)?)\s*(?:week|semana|wk)` anchored at the current position:
`some (group, rest)` gives the captured number text and the scan position
after the alternation (tried in the pattern's order). -/
def matchWeekAt (s : List Char) : Option (List Char × List Char) :=
  match s with
  | c :: _ =>
    if c.isDigit then
      let ip := s.takeWhile Char.isDigit
      let r1 := s.dropWhile Char.isDigit
      let fracRest : List Char × List Char :=
        match r1 with
        | '.' :: d :: r2 =>
          if d.isDigit then
            ('.' :: (d :: r2).takeWhile Char.isDigit,
              (d :: r2).dropWhile Char.isDigit)
          else ([], r1)
        | _ => ([], r1)
      let grp := ip ++ fracRest.1
      let r3 := fracRest.2.dropWhile isPySpace
      if ("week".toList).isPrefixOf r3 then some (grp, r3.drop 4)
      else if ("semana".toList).isPrefixOf r3 then some (grp, r3.drop 6)
      else if ("wk".toList).isPrefixOf r3 then some (grp, r3.drop 2)
      else none
    else none
  | [] => none

/-- `re.findall` scan for week estimates, collecting the captured number
texts from the left. -/
def findWeekEstimatesF : Nat → List Char → List (List Char)
  | 0, _ => []
  | _ + 1, [] => []
  | fuel + 1, c :: t =>
    match matchWeekAt (c :: t) with
    | some (grp, rest) => grp :: findWeekEstimatesF fuel rest
    | none => findWeekEstimatesF fuel t

def findWeekEstimates (s : List Char) : List (List Char) :=
  findWeekEstimatesF (s.length + 1) s

/-- Python `keyword in text` substring test. -/
def isSubstr (pat : List Char) : List Char → Bool
  | [] => pat.isEmpty
  | c :: t => pat.isPrefixOf (c :: t) || isSubstr pat t

/-- `re.search`: does the anchored matcher succeed at any position? -/
def searchAny (f : List Char → Bool) : List Char → Bool
  | [] => f []
  | c :: t => f (c :: t) || searchAny f t

/-- Anchored attempt of the vague-range pattern `\d+-\d+\s*(?:week|semana)`. -/
def matchRangeAt (s : List Char) : Bool :=
  match s with
  | c :: _ =>
    c.isDigit &&
      (match s.dropWhile Char.isDigit with
        | '-' :: r2 =>
          match r2 with
          | d :: _ =>
            d.isDigit &&
              (let r4 := (r2.dropWhile Char.isDigit).dropWhile isPySpace
               ("week".toList).isPrefixOf r4 ||
                 ("semana".toList).isPrefixOf r4)
          | [] => false
        | _ => false)
  | [] => false

/-- Anchored attempt of an approximation pattern `KW\s+\d+`. -/
def matchKwNumAt (kw : List Char) (s : List Char) : Bool :=
  kw.isPrefixOf s &&
    (match s.drop kw.length with
      | c :: t =>
        isPySpace c &&
          (match (c :: t).dropWhile isPySpace with
            | d :: _ => d.isDigit
            | [] => false)
      | [] => false)

/-- The vague-estimate detector: any of the four `re.search` patterns. -/
def hasVague (cl : List Char) : Bool :=
  searchAny matchRangeAt cl ||
    searchAny (matchKwNumAt ("around".toList)) cl ||
    searchAny (matchKwNumAt ("approximately".toList)) cl ||
    searchAny (matchKwNumAt ("cerca de".toList)) cl

def unit_test_keywords : List String :=
  ["unit test", "teste unitário", "testes unitários", "unittest", "jest",
    "pytest", "tdd", "test-driven"]

def e2e_keywords : List String :=
  ["e2e", "end-to-end", "teste e2e", "testes e2e", "test e2e"]

def dependency_keywords : List String :=
  ["dependência", "dependências", "dependency", "dependencies", "depends on",
    "depende de", "workflow", "fluxo", "→", "-->", "after", "após", "before",
    "antes"]

def hasAnyKeyword (kws : List String) (cl : List Char) : Bool :=
  kws.any fun kw => isSubstr kw.toList cl

/-- Value of a run of decimal digit characters. -/
def digitsVal (l : List Char) : Nat :=
  l.foldl (fun acc c => 10 * acc + (c.toNat - 48)) 0

/-- `float(est)` of a captured estimate `\d+(\.\d+)?` as the triple
(integer part, fraction value, fraction length); the comparisons below are
exact decimal comparisons, which agree with Python's float comparisons on
the short decimal literals this pattern captures. -/
def estParts (e : List Char) : Nat × Nat × Nat :=
  let ip := e.takeWhile Char.isDigit
  match e.dropWhile Char.isDigit with
  | '.' :: fr => (digitsVal ip, digitsVal fr, fr.length)
  | _ => (digitsVal ip, 0, 0)

/-- Numeric `<` on two captured estimates. -/
def estLtB (a b : List Char) : Bool :=
  let pa := estParts a
  let pb := estParts b
  decide ((pa.1 * 10 ^ pa.2.2 + pa.2.1) * 10 ^ pb.2.2 <
    (pb.1 * 10 ^ pb.2.2 + pb.2.1) * 10 ^ pa.2.2)

/-- Numeric `< 0.5` on a captured estimate. -/
def estLtHalfB (e : List Char) : Bool :=
  let p := estParts e
  decide (2 * (p.1 * 10 ^ p.2.2 + p.2.1) < 10 ^ p.2.2)

/-- Python `min` over the estimates: keeps the first minimal element. -/
def pyMinEst : List (List Char) → List Char
  | [] => []
  | x :: rest => rest.foldl (fun acc e => if estLtB e acc then e else acc) x

def backendRangeMsg (b : Nat) : String :=
  "Backend tasks count (" ++ toString b ++
    ") outside recommended range of 2-7. Consider breaking down into multiple granular tasks."

def frontendRangeMsg (f : Nat) : String :=
  "Frontend tasks count (" ++ toString f ++
    ") outside recommended range of 2-7. Consider breaking down into multiple granular tasks."

def unitTestsMsg : String :=
  "Unit tests not explicitly mentioned in implementation tasks. Each task should include its unit tests following TDD principles."

def e2eMsg : String :=
  "No dedicated E2E test section found. Consider adding separate E2E test tasks covering main user flows."

def vagueMsg : String :=
  "Week estimates should be exact numbers (e.g., \x272.5 weeks\x27), not ranges or approximations."

/-- The below-minimum warning; the interpolated minimum is rendered as the
captured text (Python renders the float, which prints the same decimal for
these captures up to trailing-zero normalization). -/
def minEstimateMsg (e : List Char) : String :=
  "Found task with estimate below minimum 0.5 weeks (" ++ String.mk e ++
    " weeks). All tasks should be at least 0.5 weeks."

def depMsg : String :=
  "No dependency or workflow information found. Consider specifying task dependencies and execution order."

def noTasksMsg : String :=
  "No backend or frontend tasks found. Content appears incomplete."

def noEstimatesMsg : String :=
  "No week estimates found. All tasks must have time estimates."

/-- The validity verdict: starts `True` and each critical check flips it to
`False`; equivalently, the nested conditions below in the source's order. -/
def jiraValid (b f w : Nat) : Bool :=
  if b = 0 ∧ f = 0 then false
  else if b = 1 then false
  else if f = 1 then false
  else if b > 7 then false
  else if f > 7 then false
  else if (b > 0 ∨ f > 0) ∧ w = 0 then false
  else true

/-- The warnings list, in the order the source appends them: the seven
checks, then the two messages added while computing the verdict. -/
def jira_warning_list (cl : List Char) (b f : Nat)
    (ests : List (List Char)) : List String :=
  (if b < 2 ∨ b > 7 then [backendRangeMsg b] else []) ++
  (if f < 2 ∨ f > 7 then [frontendRangeMsg f] else []) ++
  (if hasAnyKeyword unit_test_keywords cl = false ∧ (b > 0 ∨ f > 0) then
    [unitTestsMsg] else []) ++
  (if hasAnyKeyword e2e_keywords cl = false then [e2eMsg] else []) ++
  (if hasVague cl = true then [vagueMsg] else []) ++
  (if ests ≠ [] ∧ estLtHalfB (pyMinEst ests) = true then
    [minEstimateMsg (pyMinEst ests)] else []) ++
  (if hasAnyKeyword dependency_keywords cl = false ∧ (b > 1 ∨ f > 1) then
    [depMsg] else []) ++
  (if b = 0 ∧ f = 0 then [noTasksMsg] else []) ++
  (if (b > 0 ∨ f > 0) ∧ ests.length = 0 then [noEstimatesMsg] else [])

/-- `jira_content.lower()` as a character list. -/
def py_lower_chars (s : String) : List Char := s.toList.map Char.toLower

/-- The validator's own backend header count. -/
def backend_header_count (s : String) : Nat :=
  countHeaders backendChars (py_lower_chars s)

/-- The validator's own frontend header count. -/
def frontend_header_count (s : String) : Nat :=
  countHeaders frontendChars (py_lower_chars s)

/-- The validator's own list of captured week estimates. -/
def week_estimates_found (s : String) : List (List Char) :=
  findWeekEstimates (py_lower_chars s)

/-- `validate_jira_structure(jira_content)`, with `none` modelling a `None`
argument.  The body is total, so the source's final `except` clause (which
maps any internal error to `(False, ["Validation error: ..."])`) is
unreachable in this model. -/
def validate_jira_structure (jira_content : Option String) :
    Bool × List String :=
  match jira_content with
  | none => (false, ["Jira content is None"])
  | some content =>
    if content = "" ∨ py_strip content = "" then
      (false, ["Jira content is empty"])
    else
      (jiraValid (backend_header_count content) (frontend_header_count content)
          (week_estimates_found content).length,
        jira_warning_list (py_lower_chars content)
          (backend_header_count content) (frontend_header_count content)
          (week_estimates_found content))

/-! ### Facts about the validator -/

theorem jiraValid_eq_true_iff (b f w : Nat) :
    jiraValid b f w = true ↔
      (¬ (b = 0 ∧ f = 0) ∧ b ≠ 1 ∧ f ≠ 1 ∧ b ≤ 7 ∧ f ≤ 7 ∧
        ¬ ((b > 0 ∨ f > 0) ∧ w = 0)) := by
  unfold jiraValid
  split_ifs <;> simp_all

theorem jiraValid_eq_false_iff (b f w : Nat) :
    jiraValid b f w = false ↔
      ((b = 0 ∧ f = 0) ∨ b = 1 ∨ f = 1 ∨ b > 7 ∨ f > 7 ∨
        ((b > 0 ∨ f > 0) ∧ w = 0)) := by
  rw [← Bool.not_eq_true, jiraValid_eq_true_iff]
  constructor
  · intro h
    by_contra hc
    push_neg at hc
    exact h ⟨fun hz => hc.1 hz.1 hz.2, hc.2.1, hc.2.2.1, by omega, by omega,
      fun hz => hc.2.2.2.2.2 hz.1 hz.2⟩
  · intro h hc
    rcases h with h | h | h | h | h | h
    · exact hc.1 h
    · exact hc.2.1 h
    · exact hc.2.2.1 h
    · omega
    · omega
    · exact hc.2.2.2.2.2 h

theorem matchHeaderAt_eq_none_of_no_hash {word s : List Char}
    (h : ∀ c ∈ s, c ≠ '#') : matchHeaderAt word s = none := by
  cases s with
  | nil => rfl
  | cons c t =>
    simp [matchHeaderAt, h c (List.mem_cons_self _ _)]

theorem countHeadersF_eq_zero {word : List Char} (fuel : Nat) {cl : List Char}
    (h : ∀ c ∈ cl, c ≠ '#') : countHeadersF word fuel cl = 0 := by
  induction fuel generalizing cl with
  | zero => rfl
  | succ n ih =>
    cases cl with
    | nil => rfl
    | cons c t =>
      have hm := @matchHeaderAt_eq_none_of_no_hash word (c :: t) h
      rw [countHeadersF, hm]
      exact ih fun x hx => h x (List.mem_cons_of_mem _ hx)

theorem counts_zero_of_strip_empty {s : String} (h : py_strip s = "") :
    backend_header_count s = 0 ∧ frontend_header_count s = 0 := by
  have hall : ∀ c ∈ s.toList, isPySpace c = true :=
    stripChars_eq_nil ((stringMk_eq_empty_iff _).mp h)
  have hlow : py_lower_chars s = s.toList := map_toLower_of_all_space hall
  have hnh : ∀ c ∈ py_lower_chars s, c ≠ '#' := by
    rw [hlow]
    intro c hc heq
    have := hall c hc
    rw [heq] at this
    exact absurd this (by decide)
  exact ⟨countHeadersF_eq_zero _ hnh, countHeadersF_eq_zero _ hnh⟩

/-- Claim C2 (confirmed): for every non-null, non-empty input, the verdict
is `true` exactly when all six critical conditions hold of the validator's
own header counts and week-estimate count; every other check only appends
warnings and never changes the verdict (the verdict depends on nothing
else). -/
theorem c2_validator_verdict_iff (s : String) (hs : s ≠ "") :
    (validate_jira_structure (some s)).1 = true ↔
      (¬ (backend_header_count s = 0 ∧ frontend_header_count s = 0) ∧
        backend_header_count s ≠ 1 ∧ frontend_header_count s ≠ 1 ∧
        backend_header_count s ≤ 7 ∧ frontend_header_count s ≤ 7 ∧
        ¬ ((backend_header_count s > 0 ∨ frontend_header_count s > 0) ∧
          (week_estimates_found s).length = 0)) := by
  by_cases h0 : s = "" ∨ py_strip s = ""
  · have hstrip : py_strip s = "" := by
      rcases h0 with h0 | h0
      · exact absurd h0 hs
      · exact h0
    have hz := counts_zero_of_strip_empty hstrip
    simp only [validate_jira_structure, if_pos h0]
    rw [hz.1, hz.2]
    simp
  · simp only [validate_jira_structure, if_neg h0]
    exact jiraValid_eq_true_iff _ _ _

/-- Witness for C2 on a concrete well-shaped export text. -/
theorem c2_validator_verdict_iff_witness :
    (("## backend 1\n## backend 2\n## frontend 1\n## frontend 2\n2 weeks" :
        String) ≠ "") ∧
    ((validate_jira_structure
        (some "## backend 1\n## backend 2\n## frontend 1\n## frontend 2\n2 weeks")).1 =
          true ↔
      (¬ (backend_header_count
            "## backend 1\n## backend 2\n## frontend 1\n## frontend 2\n2 weeks" = 0 ∧
          frontend_header_count
            "## backend 1\n## backend 2\n## frontend 1\n## frontend 2\n2 weeks" = 0) ∧
        backend_header_count
          "## backend 1\n## backend 2\n## frontend 1\n## frontend 2\n2 weeks" ≠ 1 ∧
        frontend_header_count
          "## backend 1\n## backend 2\n## frontend 1\n## frontend 2\n2 weeks" ≠ 1 ∧
        backend_header_count
          "## backend 1\n## backend 2\n## frontend 1\n## frontend 2\n2 weeks" ≤ 7 ∧
        frontend_header_count
          "## backend 1\n## backend 2\n## frontend 1\n## frontend 2\n2 weeks" ≤ 7 ∧
        ¬ ((backend_header_count
              "## backend 1\n## backend 2\n## frontend 1\n## frontend 2\n2 weeks" > 0 ∨
            frontend_header_count
              "## backend 1\n## backend 2\n## frontend 1\n## frontend 2\n2 weeks" > 0) ∧
          (week_estimates_found
            "## backend 1\n## backend 2\n## frontend 1\n## frontend 2\n2 weeks").length =
              0))) :=
  ⟨by decide, c2_validator_verdict_iff _ (by decide)⟩

/-- Claim C3 (confirmed): the validator is a total function of its input —
in this model it cannot raise — and `None` and empty/whitespace-only inputs
return `false` with the single defensive warning the source hard-codes;
the source's closing `except` clause, which would map an internal error to
`(False, ["Validation error: ..."])`, is unreachable for a total body. -/
theorem c3_validator_never_raises :
    validate_jira_structure none = (false, ["Jira content is None"]) ∧
    validate_jira_structure (some "") = (false, ["Jira content is empty"]) ∧
    ∀ s : String, py_strip s = "" →
      validate_jira_structure (some s) = (false, ["Jira content is empty"]) := by
  refine ⟨rfl, by decide, fun s h => ?_⟩
  simp [validate_jira_structure, h]

/-- Witness for C3 at a whitespace-only input. -/
theorem c3_validator_never_raises_witness :
    validate_jira_structure (some "  ") = (false, ["Jira content is empty"]) :=
  c3_validator_never_raises.2.2 "  " (by decide)

theorem jira_warning_list_ne_nil {cl : List Char} {b f : Nat}
    {ests : List (List Char)} (h : jiraValid b f ests.length = false) :
    jira_warning_list cl b f ests ≠ [] := by
  rw [jiraValid_eq_false_iff] at h
  unfold jira_warning_list
  intro hnil
  simp only [List.append_eq_nil] at hnil
  obtain ⟨⟨⟨⟨⟨⟨⟨⟨w1, w2⟩, w3⟩, w4⟩, w5⟩, w6⟩, w7⟩, w8⟩, w9⟩ := hnil
  rcases h with h | h | h | h | h | h
  · rw [if_pos h] at w8
    exact List.cons_ne_nil _ _ w8
  · rw [if_pos (Or.inl (by omega : b < 2))] at w1
    exact List.cons_ne_nil _ _ w1
  · rw [if_pos (Or.inl (by omega : f < 2))] at w2
    exact List.cons_ne_nil _ _ w2
  · rw [if_pos (Or.inr h)] at w1
    exact List.cons_ne_nil _ _ w1
  · rw [if_pos (Or.inr h)] at w2
    exact List.cons_ne_nil _ _ w2
  · rw [if_pos h] at w9
    exact List.cons_ne_nil _ _ w9

/-- Claim C10 (confirmed): whenever the validator returns
`is_valid = false` the warnings list is non-empty; in particular in the
count-equal-1 and count-above-7 cases, where the verdict flip itself adds
nothing, the step-1/step-2 out-of-range warning is already present. -/
theorem c10_invalid_has_warnings (input : Option String)
    (h : (validate_jira_structure input).1 = false) :
    (validate_jira_structure input).2 ≠ [] := by
  match input with
  | none => simp [validate_jira_structure]
  | some s =>
    by_cases h0 : s = "" ∨ py_strip s = ""
    · simp [validate_jira_structure, h0]
    · simp only [validate_jira_structure, if_neg h0] at h ⊢
      exact jira_warning_list_ne_nil h

/-- Witness for C10 at the `None` input. -/
theorem c10_invalid_has_warnings_witness :
    (validate_jira_structure none).2 ≠ [] :=
  c10_invalid_has_warnings none (by decide)

end RefineFlow
